import Mathlib

/-!
# Verification of the `cached` crate (caching structures and memoization)

The repository's `src/lib.rs` declares the `Cached` trait (operations every
store implements, with provided defaults for the statistics and configuration
accessors) and documents the memoization macros.  The store implementations
(`UnboundCache`, `SizedCache`, `TimedCache`) and the macro bodies live in
modules (`stores`, `macros`) that are not part of the given sources, so they
are modelled here from the specification's description of their behavior.

Machine integers (`u32` hit/miss counters, `usize` sizes, `u64` lifespans)
are modelled as `Nat`; the specification treats counter overflow as out of
scope ("not a behavior requiring special handling under normal load").
Wall-clock time is modelled by passing an explicit `now : Nat` (seconds) to
the operations of the time-bounded store.  Mutation of `&mut self` is
modelled by returning the updated store.
-/

namespace Cached

/-- Association-list lookup: value of the first pair whose key matches. -/
def lookupA {K V : Type} [DecidableEq K] : List (K × V) → K → Option V
  | [], _ => none
  | (k', v) :: t, k => if k' = k then some v else lookupA t k

/-- Remove every pair with the given key from an association list. -/
def eraseKey {K V : Type} [DecidableEq K] (l : List (K × V)) (k : K) :
    List (K × V) :=
  l.filter (fun p => !decide (p.1 = k))

/-- Remove every occurrence of an element from a list of keys. -/
def eraseAll {K : Type} [DecidableEq K] (l : List K) (k : K) : List K :=
  l.filter (fun a => !decide (a = k))

/-- The keys of an association list, in order. -/
def keys {K V : Type} (l : List (K × V)) : List K :=
  l.map Prod.fst

/-- The cache-operations contract of src/lib.rs lines 181-202: three required
operations (`cache_get`, `cache_set`, `cache_size`) and four provided
defaults (`cache_hits`, `cache_misses`, `cache_capacity`, `cache_lifespan`)
that return `none`.  `cache_get` takes `&mut self` in Rust, modelled by
returning the updated store with the result. -/
structure CachedOps (C K V : Type) where
  cache_get : C → K → Option V × C
  cache_set : C → K → V → C
  cache_size : C → Nat
  cache_hits : C → Option Nat := fun _ => none
  cache_misses : C → Option Nat := fun _ => none
  cache_capacity : C → Option Nat := fun _ => none
  cache_lifespan : C → Option Nat := fun _ => none

/-- Modelled from the spec: the `UnboundCache` store (spec §4.2); its source
module `stores` is not among the given files.  A plain mapping plus hit and
miss counters. -/
structure UnboundCache (K V : Type) where
  store : List (K × V)
  hits : Nat
  misses : Nat

/-- Modelled from the spec: `UnboundCache` construction takes no parameters
(spec §6); empty mapping, zeroed counters. -/
def UnboundCache.new {K V : Type} : UnboundCache K V :=
  ⟨[], 0, 0⟩

/-- Modelled from the spec: `UnboundCache` lookup (§4.2) — a pure lookup;
miss increments miss-count, hit increments hit-count. -/
def UnboundCache.get {K V : Type} [DecidableEq K] (c : UnboundCache K V)
    (k : K) : Option V × UnboundCache K V :=
  match lookupA c.store k with
  | some v => (some v, { c with hits := c.hits + 1 })
  | none => (none, { c with misses := c.misses + 1 })

/-- Modelled from the spec: `UnboundCache` insertion (§4.2) — always
succeeds, increases size unless the key already existed. -/
def UnboundCache.set {K V : Type} [DecidableEq K] (c : UnboundCache K V)
    (k : K) (v : V) : UnboundCache K V :=
  { c with store := (k, v) :: eraseKey c.store k }

/-- Modelled from the spec: `size()` — number of entries. -/
def UnboundCache.cache_size {K V : Type} (c : UnboundCache K V) : Nat :=
  c.store.length

/-- Modelled from the spec: `UnboundCache` tracks statistics, so `hits()`
returns `Some`. -/
def UnboundCache.cache_hits {K V : Type} (c : UnboundCache K V) :
    Option Nat :=
  some c.hits

/-- Modelled from the spec: `UnboundCache` tracks statistics, so `misses()`
returns `Some`. -/
def UnboundCache.cache_misses {K V : Type} (c : UnboundCache K V) :
    Option Nat :=
  some c.misses

/-- Modelled from the spec: the `SizedCache` store (spec §4.3); its source
module `stores` is not among the given files.  A mapping, a recency
ordering over the currently-held keys (most recently used first), a fixed
capacity, and hit and miss counters. -/
structure SizedCache (K V : Type) where
  store : List (K × V)
  order : List K
  capacity : Nat
  hits : Nat
  misses : Nat

/-- Modelled from the spec: `SizedCache` construction with a capacity
(spec §6); empty mapping and ordering, zeroed counters. -/
def SizedCache.with_size {K V : Type} (c : Nat) : SizedCache K V :=
  ⟨[], [], c, 0, 0⟩

/-- Modelled from the spec: eviction at the least-recently-used end
(spec §4.3) when over capacity.  For a declared capacity of zero the spec
leaves the choice between "evicts immediately" and "never stores" (§7);
this model evicts the freshly inserted entry immediately. -/
def SizedCache.trim {K V : Type} [DecidableEq K] (c : SizedCache K V) :
    SizedCache K V :=
  if c.store.length ≤ c.capacity then c
  else
    match c.order.getLast? with
    | none => c
    | some lru =>
        { c with store := eraseKey c.store lru, order := eraseAll c.order lru }

/-- Modelled from the spec: `SizedCache` lookup (§4.3) — on hit, increment
hit-count and move the key to the most-recently-used end; on miss,
increment miss-count; a miss never evicts. -/
def SizedCache.get {K V : Type} [DecidableEq K] (c : SizedCache K V)
    (k : K) : Option V × SizedCache K V :=
  match lookupA c.store k with
  | some v =>
      (some v, { c with hits := c.hits + 1, order := k :: eraseAll c.order k })
  | none => (none, { c with misses := c.misses + 1 })

/-- Modelled from the spec: `SizedCache` insertion (§4.3) — overwrite and
move to most-recently-used if present; otherwise insert as
most-recently-used and, when over capacity, synchronously evict at the
least-recently-used end. -/
def SizedCache.set {K V : Type} [DecidableEq K] (c : SizedCache K V)
    (k : K) (v : V) : SizedCache K V :=
  match lookupA c.store k with
  | some _ =>
      { c with store := (k, v) :: eraseKey c.store k,
               order := k :: eraseAll c.order k }
  | none =>
      SizedCache.trim
        { c with store := (k, v) :: c.store, order := k :: c.order }

/-- Modelled from the spec: `size()` — number of entries. -/
def SizedCache.cache_size {K V : Type} (c : SizedCache K V) : Nat :=
  c.store.length

/-- Modelled from the spec: `SizedCache` tracks statistics. -/
def SizedCache.cache_hits {K V : Type} (c : SizedCache K V) : Option Nat :=
  some c.hits

/-- Modelled from the spec: `SizedCache` tracks statistics. -/
def SizedCache.cache_misses {K V : Type} (c : SizedCache K V) : Option Nat :=
  some c.misses

/-- Modelled from the spec: `capacity()` reports the declared capacity. -/
def SizedCache.cache_capacity {K V : Type} (c : SizedCache K V) :
    Option Nat :=
  some c.capacity

/-- Modelled from the spec: the `TimedCache` store (spec §4.4); its source
module `stores` is not among the given files.  A mapping from keys to
value-and-insertion-timestamp pairs, a fixed lifespan in seconds, and hit
and miss counters. -/
structure TimedCache (K V : Type) where
  store : List (K × (V × Nat))
  lifespan : Nat
  hits : Nat
  misses : Nat

/-- Modelled from the spec: `TimedCache` construction with a lifespan in
whole seconds (spec §6). -/
def TimedCache.with_lifespan {K V : Type} (t : Nat) : TimedCache K V :=
  ⟨[], t, 0, 0⟩

/-- Modelled from the spec: `TimedCache` lookup (§4.4) — absent: count a
miss; present but older than the lifespan (`now - insertion_timestamp > T`):
remove the entry, count a miss, return nothing (lazy expiration); otherwise
count a hit and return the value. -/
def TimedCache.get {K V : Type} [DecidableEq K] (c : TimedCache K V)
    (now : Nat) (k : K) : Option V × TimedCache K V :=
  match lookupA c.store k with
  | none => (none, { c with misses := c.misses + 1 })
  | some (v, ts) =>
      if c.lifespan < now - ts then
        (none, { c with store := eraseKey c.store k, misses := c.misses + 1 })
      else
        (some v, { c with hits := c.hits + 1 })

/-- Modelled from the spec: `TimedCache` insertion (§4.4) — inserts or
overwrites both the value and the timestamp to "now", resetting the
entry's age. -/
def TimedCache.set {K V : Type} [DecidableEq K] (c : TimedCache K V)
    (now : Nat) (k : K) (v : V) : TimedCache K V :=
  { c with store := (k, (v, now)) :: eraseKey c.store k }

/-- Modelled from the spec: `size()` reports the raw entry count, which may
include expired-but-not-yet-read entries (§4.4). -/
def TimedCache.cache_size {K V : Type} (c : TimedCache K V) : Nat :=
  c.store.length

/-- Modelled from the spec: `TimedCache` tracks statistics. -/
def TimedCache.cache_hits {K V : Type} (c : TimedCache K V) : Option Nat :=
  some c.hits

/-- Modelled from the spec: `TimedCache` tracks statistics. -/
def TimedCache.cache_misses {K V : Type} (c : TimedCache K V) : Option Nat :=
  some c.misses

/-- Modelled from the spec: `lifespan()` reports the declared lifespan. -/
def TimedCache.cache_lifespan {K V : Type} (c : TimedCache K V) :
    Option Nat :=
  some c.lifespan

/-- A single cache operation (lookup or insertion) for the untimed stores. -/
inductive CacheOp (K V : Type) where
  | get (k : K)
  | set (k : K) (v : V)

/-- A single cache operation for the timed store, tagged with the wall-clock
second at which it happens. -/
inductive TimedOp (K V : Type) where
  | get (now : Nat) (k : K)
  | set (now : Nat) (k : K) (v : V)

/-- Run one operation on an `UnboundCache`. -/
def UnboundCache.applyOp {K V : Type} [DecidableEq K] (c : UnboundCache K V) :
    CacheOp K V → UnboundCache K V
  | CacheOp.get k => (c.get k).2
  | CacheOp.set k v => c.set k v

/-- Run a sequence of operations on an `UnboundCache`. -/
def UnboundCache.applyOps {K V : Type} [DecidableEq K] (c : UnboundCache K V) :
    List (CacheOp K V) → UnboundCache K V
  | [] => c
  | op :: t => (c.applyOp op).applyOps t

/-- Run one operation on a `SizedCache`. -/
def SizedCache.applyOp {K V : Type} [DecidableEq K] (c : SizedCache K V) :
    CacheOp K V → SizedCache K V
  | CacheOp.get k => (c.get k).2
  | CacheOp.set k v => c.set k v

/-- Run a sequence of operations on a `SizedCache`. -/
def SizedCache.applyOps {K V : Type} [DecidableEq K] (c : SizedCache K V) :
    List (CacheOp K V) → SizedCache K V
  | [] => c
  | op :: t => (c.applyOp op).applyOps t

/-- Run one operation on a `TimedCache`. -/
def TimedCache.applyOp {K V : Type} [DecidableEq K] (c : TimedCache K V) :
    TimedOp K V → TimedCache K V
  | TimedOp.get now k => (c.get now k).2
  | TimedOp.set now k v => c.set now k v

/-- Run a sequence of operations on a `TimedCache`. -/
def TimedCache.applyOps {K V : Type} [DecidableEq K] (c : TimedCache K V) :
    List (TimedOp K V) → TimedCache K V
  | [] => c
  | op :: t => (c.applyOp op).applyOps t

/-- Count, along a run, how many lookups hit (key present) and how many
missed (key absent), for an `UnboundCache`. -/
def UnboundCache.counts {K V : Type} [DecidableEq K] (c : UnboundCache K V) :
    List (CacheOp K V) → Nat × Nat
  | [] => (0, 0)
  | CacheOp.get k :: t =>
      let r := c.get k
      let p := r.2.counts t
      match r.1 with
      | some _ => (p.1 + 1, p.2)
      | none => (p.1, p.2 + 1)
  | CacheOp.set k v :: t => (c.set k v).counts t

/-- Count, along a run, how many lookups hit and how many missed, for a
`SizedCache`. -/
def SizedCache.counts {K V : Type} [DecidableEq K] (c : SizedCache K V) :
    List (CacheOp K V) → Nat × Nat
  | [] => (0, 0)
  | CacheOp.get k :: t =>
      let r := c.get k
      let p := r.2.counts t
      match r.1 with
      | some _ => (p.1 + 1, p.2)
      | none => (p.1, p.2 + 1)
  | CacheOp.set k v :: t => (c.set k v).counts t

/-- Count, along a run, how many lookups hit (key present and not expired)
and how many missed (key absent or expired), for a `TimedCache`. -/
def TimedCache.counts {K V : Type} [DecidableEq K] (c : TimedCache K V) :
    List (TimedOp K V) → Nat × Nat
  | [] => (0, 0)
  | TimedOp.get now k :: t =>
      let r := c.get now k
      let p := r.2.counts t
      match r.1 with
      | some _ => (p.1 + 1, p.2)
      | none => (p.1, p.2 + 1)
  | TimedOp.set now k v :: t => (c.set now k v).counts t

/-- The structural invariant of `SizedCache` (spec §3): the size never
exceeds the capacity, and the recency ordering holds exactly the keys
present in the mapping, each once. -/
def sizedInvariant {K V : Type} (c : SizedCache K V) : Prop :=
  c.store.length ≤ c.capacity ∧ c.order.Nodup ∧ c.order.Perm (keys c.store)

/-- The state threaded through memoized calls: the shared cache instance
plus a count of how many times the function body has been evaluated. -/
structure MemoState (C : Type) where
  cache : C
  evals : Nat

/-- Modelled from the spec: the memoization wrapper protocol (spec §4.5)
implemented by the `cached!` macro, whose source module `macros` is not
among the given files.  Look the key up; on a hit return the stored value
without evaluating the body; on a miss evaluate the body and insert the
result.  (The lock/unlock discipline around the body is concurrency and is
not part of this sequential model.) -/
def memoCall {C K V : Type} (ops : CachedOps C K V) (f : K → V)
    (s : MemoState C) (k : K) : V × MemoState C :=
  let g := ops.cache_get s.cache k
  match g.1 with
  | some v => (v, ⟨g.2, s.evals⟩)
  | none =>
      let v := f k
      (v, ⟨ops.cache_set g.2 k v, s.evals + 1⟩)

/-- Modelled from the spec: the result-caching variant of the memoization
protocol (spec §4.5 step 6 and §7) implemented by the `cached_result!`
macro, whose source module `macros` is not among the given files.  Only a
success value is inserted; a failure outcome is returned to the caller
unchanged and never occupies a cache slot. -/
def memoResultCall {C K V E : Type} (ops : CachedOps C K V)
    (f : K → Except E V) (s : MemoState C) (k : K) : Except E V × MemoState C :=
  let g := ops.cache_get s.cache k
  match g.1 with
  | some v => (Except.ok v, ⟨g.2, s.evals⟩)
  | none =>
      match f k with
      | Except.ok v => (Except.ok v, ⟨ops.cache_set g.2 k v, s.evals + 1⟩)
      | Except.error e => (Except.error e, ⟨g.2, s.evals + 1⟩)

/-- The contract operations of `UnboundCache`, packaged as a `CachedOps`
record (the store the shorthand `cached!` form uses). -/
def unboundOps (K V : Type) [DecidableEq K] :
    CachedOps (UnboundCache K V) K V where
  cache_get := fun c k => c.get k
  cache_set := fun c k v => c.set k v
  cache_size := fun c => c.cache_size
  cache_hits := fun c => c.cache_hits
  cache_misses := fun c => c.cache_misses

section AssocLemmas

variable {K V : Type} [DecidableEq K]

omit [DecidableEq K] in
@[simp]
theorem keys_nil : keys ([] : List (K × V)) = [] := rfl

omit [DecidableEq K] in
@[simp]
theorem keys_cons (p : K × V) (l : List (K × V)) :
    keys (p :: l) = p.1 :: keys l := rfl

@[simp]
theorem eraseAll_nil (k : K) : eraseAll ([] : List K) k = [] := rfl

theorem eraseAll_cons_self (k : K) (l : List K) :
    eraseAll (k :: l) k = eraseAll l k := by
  simp [eraseAll, List.filter_cons]

theorem eraseAll_cons_ne {a k : K} (h : a ≠ k) (l : List K) :
    eraseAll (a :: l) k = a :: eraseAll l k := by
  simp [eraseAll, List.filter_cons, h]

@[simp]
theorem eraseKey_nil (k : K) : eraseKey ([] : List (K × V)) k = [] := rfl

theorem eraseKey_cons_self (k : K) (v : V) (l : List (K × V)) :
    eraseKey ((k, v) :: l) k = eraseKey l k := by
  simp [eraseKey, List.filter_cons]

theorem eraseKey_cons_ne {k' k : K} (h : k' ≠ k) (v : V) (l : List (K × V)) :
    eraseKey ((k', v) :: l) k = (k', v) :: eraseKey l k := by
  simp [eraseKey, List.filter_cons, h]

theorem lookupA_cons_self (k : K) (v : V) (l : List (K × V)) :
    lookupA ((k, v) :: l) k = some v := by
  simp [lookupA]

theorem lookupA_cons_ne {k' k : K} (h : k' ≠ k) (v : V) (l : List (K × V)) :
    lookupA ((k', v) :: l) k = lookupA l k := by
  simp [lookupA, h]

theorem lookupA_eq_none_iff (l : List (K × V)) (k : K) :
    lookupA l k = none ↔ k ∉ keys l := by
  induction l with
  | nil => simp [lookupA]
  | cons p t ih =>
    obtain ⟨k', v⟩ := p
    by_cases h : k' = k
    · subst h
      simp [lookupA]
    · have h' : ¬k = k' := fun e => h (Eq.symm e)
      rw [lookupA_cons_ne h, ih, keys_cons]
      simp [h']

theorem lookupA_isSome_iff (l : List (K × V)) (k : K) :
    (lookupA l k).isSome = true ↔ k ∈ keys l := by
  rw [Option.isSome_iff_ne_none, not_iff_comm, ← lookupA_eq_none_iff]

theorem mem_keys_of_lookupA (l : List (K × V)) (k : K) (v : V)
    (h : lookupA l k = some v) : k ∈ keys l := by
  rw [← lookupA_isSome_iff, h]
  rfl

theorem mem_eraseAll {l : List K} {a k : K} :
    a ∈ eraseAll l k ↔ a ∈ l ∧ a ≠ k := by
  simp [eraseAll, List.mem_filter]

theorem not_mem_eraseAll_self (l : List K) (k : K) : k ∉ eraseAll l k := by
  intro h
  exact (mem_eraseAll.mp h).2 rfl

theorem nodup_eraseAll {l : List K} (h : l.Nodup) (k : K) :
    (eraseAll l k).Nodup :=
  h.filter _

theorem eraseAll_perm {l₁ l₂ : List K} (h : l₁.Perm l₂) (k : K) :
    (eraseAll l₁ k).Perm (eraseAll l₂ k) :=
  h.filter _

theorem eraseAll_of_not_mem {l : List K} {k : K} (h : k ∉ l) :
    eraseAll l k = l := by
  induction l with
  | nil => rfl
  | cons a t ih =>
    have ha : a ≠ k := fun e => h (e ▸ List.mem_cons_self a t)
    have ht : k ∉ t := fun m => h (List.mem_cons_of_mem _ m)
    rw [eraseAll_cons_ne ha, ih ht]

theorem perm_cons_eraseAll {l : List K} {k : K} (hn : l.Nodup) (hm : k ∈ l) :
    l.Perm (k :: eraseAll l k) := by
  induction l with
  | nil => cases hm
  | cons a t ih =>
    by_cases h : a = k
    · subst h
      have : a ∉ t := (List.nodup_cons.mp hn).1
      rw [eraseAll_cons_self, eraseAll_of_not_mem this]
    · have hmt : k ∈ t := by
        rcases List.mem_cons.mp hm with h1 | h1
        · exact absurd h1.symm h
        · exact h1
      have hnt : t.Nodup := (List.nodup_cons.mp hn).2
      have step : (a :: t).Perm (a :: k :: eraseAll t k) :=
        List.Perm.cons a (ih hnt hmt)
      have swap : (a :: k :: eraseAll t k).Perm (k :: a :: eraseAll t k) :=
        List.Perm.swap k a _
      rw [eraseAll_cons_ne h]
      exact step.trans swap

theorem length_eraseAll_of_mem {l : List K} {k : K} (hn : l.Nodup)
    (hm : k ∈ l) : l.length = (eraseAll l k).length + 1 := by
  have := (perm_cons_eraseAll hn hm).length_eq
  simpa using this

theorem keys_eraseKey (l : List (K × V)) (k : K) :
    keys (eraseKey l k) = eraseAll (keys l) k := by
  induction l with
  | nil => rfl
  | cons p t ih =>
    obtain ⟨k', v⟩ := p
    by_cases h : k' = k
    · subst h
      rw [eraseKey_cons_self, keys_cons, eraseAll_cons_self, ih]
    · rw [eraseKey_cons_ne h, keys_cons, keys_cons, eraseAll_cons_ne h, ih]

theorem eraseKey_eraseKey (l : List (K × V)) (k : K) :
    eraseKey (eraseKey l k) k = eraseKey l k := by
  induction l with
  | nil => rfl
  | cons p t ih =>
    obtain ⟨k', v⟩ := p
    by_cases h : k' = k
    · subst h
      rw [eraseKey_cons_self, ih]
    · rw [eraseKey_cons_ne h, eraseKey_cons_ne h, ih]

theorem lookupA_eraseKey_self (l : List (K × V)) (k : K) :
    lookupA (eraseKey l k) k = none := by
  rw [lookupA_eq_none_iff, keys_eraseKey]
  exact not_mem_eraseAll_self _ _

theorem lookupA_eraseKey_ne (l : List (K × V)) {k' k : K} (h : k' ≠ k) :
    lookupA (eraseKey l k) k' = lookupA l k' := by
  induction l with
  | nil => rfl
  | cons p t ih =>
    obtain ⟨a, v⟩ := p
    by_cases ha : a = k
    · subst ha
      rw [eraseKey_cons_self]
      have : a ≠ k' := fun e => h (Eq.symm e)
      rw [lookupA_cons_ne this, ih]
    · rw [eraseKey_cons_ne ha]
      by_cases hk' : a = k'
      · subst hk'
        rw [lookupA_cons_self, lookupA_cons_self]
      · rw [lookupA_cons_ne hk', lookupA_cons_ne hk', ih]

end AssocLemmas

theorem mem_of_getLast? {α : Type} {l : List α} {a : α}
    (h : l.getLast? = some a) : a ∈ l := by
  rcases List.mem_getLast?_eq_getLast (Option.mem_def.mpr h) with ⟨hne, he⟩
  rw [he]
  exact List.getLast_mem hne

section SizedStoreLemmas

variable {K V : Type} [DecidableEq K]

theorem SizedCache.sized_get_eq_hit {c : SizedCache K V} {k : K} {v : V}
    (h : lookupA c.store k = some v) :
    c.get k =
      (some v,
        { c with hits := c.hits + 1, order := k :: eraseAll c.order k }) := by
  simp [SizedCache.get, h]

theorem SizedCache.sized_get_eq_miss {c : SizedCache K V} {k : K}
    (h : lookupA c.store k = none) :
    c.get k = (none, { c with misses := c.misses + 1 }) := by
  simp [SizedCache.get, h]

omit [DecidableEq K] in
theorem sizedInvariant_with_size (c : Nat) :
    sizedInvariant (SizedCache.with_size c : SizedCache K V) :=
  ⟨Nat.zero_le _, List.nodup_nil, List.Perm.refl _⟩

theorem sizedInvariant_get {c : SizedCache K V} (hc : sizedInvariant c)
    (k : K) : sizedInvariant (c.get k).2 := by
  obtain ⟨hlen, hnd, hperm⟩ := hc
  cases hl : lookupA c.store k with
  | none =>
      rw [SizedCache.sized_get_eq_miss hl]
      exact ⟨hlen, hnd, hperm⟩
  | some v =>
      rw [SizedCache.sized_get_eq_hit hl]
      refine ⟨hlen, ?_, ?_⟩
      · exact List.nodup_cons.mpr
          ⟨not_mem_eraseAll_self _ _, nodup_eraseAll hnd k⟩
      · have hk : k ∈ keys c.store := mem_keys_of_lookupA _ _ _ hl
        have hko : k ∈ c.order := hperm.mem_iff.mpr hk
        exact ((perm_cons_eraseAll hnd hko).symm).trans hperm

theorem sizedInvariant_trim {c : SizedCache K V} (hnd : c.order.Nodup)
    (hperm : c.order.Perm (keys c.store))
    (hlen : c.store.length ≤ c.capacity + 1) :
    sizedInvariant (SizedCache.trim c) := by
  unfold SizedCache.trim
  split
  case isTrue h => exact ⟨h, hnd, hperm⟩
  case isFalse h =>
    cases hg : c.order.getLast? with
    | none =>
        have ho : c.order = [] := List.getLast?_eq_none_iff.mp hg
        have hkeys : keys c.store = [] := by
          have := ho ▸ hperm
          exact this.symm.eq_nil
        have hstore : c.store = [] := List.map_eq_nil_iff.mp hkeys
        exact absurd (hstore ▸ Nat.zero_le c.capacity) h
    | some lru =>
        have hmem : lru ∈ c.order := mem_of_getLast? hg
        have hperm2 : (eraseAll c.order lru).Perm (eraseAll (keys c.store) lru) :=
          eraseAll_perm hperm lru
        refine ⟨?_, nodup_eraseAll hnd lru, ?_⟩
        · have e1 : c.order.length = (eraseAll c.order lru).length + 1 :=
            length_eraseAll_of_mem hnd hmem
          have e2 : c.order.length = (keys c.store).length := hperm.length_eq
          have e3 : (eraseAll c.order lru).length =
              (eraseAll (keys c.store) lru).length := hperm2.length_eq
          have l1 : (keys c.store).length = c.store.length := by simp [keys]
          have l2 : (keys (eraseKey c.store lru)).length =
              (eraseKey c.store lru).length := by simp [keys]
          have l3 : keys (eraseKey c.store lru) = eraseAll (keys c.store) lru :=
            keys_eraseKey _ _
          show (eraseKey c.store lru).length ≤ c.capacity
          rw [l3] at l2
          omega
        · show (eraseAll c.order lru).Perm (keys (eraseKey c.store lru))
          rw [keys_eraseKey]
          exact hperm2

theorem sizedInvariant_set {c : SizedCache K V} (hc : sizedInvariant c)
    (k : K) (v : V) : sizedInvariant (c.set k v) := by
  obtain ⟨hlen, hnd, hperm⟩ := hc
  cases hl : lookupA c.store k with
  | some v0 =>
      have hk : k ∈ keys c.store := mem_keys_of_lookupA _ _ _ hl
      have hko : k ∈ c.order := hperm.mem_iff.mpr hk
      have hperm2 : (eraseAll c.order k).Perm (eraseAll (keys c.store) k) :=
        eraseAll_perm hperm k
      simp only [SizedCache.set, hl]
      refine ⟨?_, ?_, ?_⟩
      · have e1 : c.order.length = (eraseAll c.order k).length + 1 :=
          length_eraseAll_of_mem hnd hko
        have e2 : c.order.length = (keys c.store).length := hperm.length_eq
        have e3 : (eraseAll c.order k).length =
            (eraseAll (keys c.store) k).length := hperm2.length_eq
        have l1 : (keys c.store).length = c.store.length := by simp [keys]
        have l2 : (keys (eraseKey c.store k)).length =
            (eraseKey c.store k).length := by simp [keys]
        have l3 : keys (eraseKey c.store k) = eraseAll (keys c.store) k :=
          keys_eraseKey _ _
        show ((k, v) :: eraseKey c.store k).length ≤ c.capacity
        rw [List.length_cons]
        rw [l3] at l2
        omega
      · exact List.nodup_cons.mpr
          ⟨not_mem_eraseAll_self _ _, nodup_eraseAll hnd k⟩
      · show (k :: eraseAll c.order k).Perm (keys ((k, v) :: eraseKey c.store k))
        rw [keys_cons, keys_eraseKey]
        exact List.Perm.cons k hperm2
  | none =>
      have hk : k ∉ keys c.store := (lookupA_eq_none_iff _ _).mp hl
      have hko : k ∉ c.order := fun m => hk (hperm.mem_iff.mp m)
      simp only [SizedCache.set, hl]
      apply sizedInvariant_trim
      · exact List.nodup_cons.mpr ⟨hko, hnd⟩
      · show (k :: c.order).Perm (keys ((k, v) :: c.store))
        rw [keys_cons]
        exact List.Perm.cons k hperm
      · show ((k, v) :: c.store).length ≤ c.capacity + 1
        rw [List.length_cons]
        exact Nat.succ_le_succ hlen

theorem sizedInvariant_applyOp {c : SizedCache K V} (hc : sizedInvariant c)
    (op : CacheOp K V) : sizedInvariant (c.applyOp op) := by
  cases op with
  | get k => exact sizedInvariant_get hc k
  | set k v => exact sizedInvariant_set hc k v

theorem sizedInvariant_applyOps {c : SizedCache K V} (hc : sizedInvariant c)
    (ops : List (CacheOp K V)) : sizedInvariant (c.applyOps ops) := by
  induction ops generalizing c with
  | nil => exact hc
  | cons op t ih => exact ih (sizedInvariant_applyOp hc op)

theorem SizedCache.capacity_get (c : SizedCache K V) (k : K) :
    (c.get k).2.capacity = c.capacity := by
  cases hl : lookupA c.store k with
  | none => rw [SizedCache.sized_get_eq_miss hl]
  | some v => rw [SizedCache.sized_get_eq_hit hl]

theorem SizedCache.capacity_trim (c : SizedCache K V) :
    (SizedCache.trim c).capacity = c.capacity := by
  unfold SizedCache.trim
  split
  · rfl
  · split <;> rfl

theorem SizedCache.capacity_set (c : SizedCache K V) (k : K) (v : V) :
    (c.set k v).capacity = c.capacity := by
  cases hl : lookupA c.store k with
  | some v0 => simp only [SizedCache.set, hl]
  | none =>
      simp only [SizedCache.set, hl]
      rw [SizedCache.capacity_trim]

theorem SizedCache.capacity_applyOp (c : SizedCache K V) (op : CacheOp K V) :
    (c.applyOp op).capacity = c.capacity := by
  cases op with
  | get k => exact SizedCache.capacity_get c k
  | set k v => exact SizedCache.capacity_set c k v

theorem SizedCache.capacity_applyOps (c : SizedCache K V)
    (ops : List (CacheOp K V)) : (c.applyOps ops).capacity = c.capacity := by
  induction ops generalizing c with
  | nil => rfl
  | cons op t ih =>
      rw [show c.applyOps (op :: t) = (c.applyOp op).applyOps t from rfl,
        ih, SizedCache.capacity_applyOp]

theorem SizedCache.lookup_set_self {c : SizedCache K V} (hc : sizedInvariant c)
    (hcap : 1 ≤ c.capacity) (k : K) (v : V) :
    lookupA (c.set k v).store k = some v := by
  obtain ⟨hlen, hnd, hperm⟩ := hc
  cases hl : lookupA c.store k with
  | some v0 =>
      simp only [SizedCache.set, hl]
      exact lookupA_cons_self _ _ _
  | none =>
      have hk : k ∉ keys c.store := (lookupA_eq_none_iff _ _).mp hl
      have hko : k ∉ c.order := fun m => hk (hperm.mem_iff.mp m)
      simp only [SizedCache.set, hl]
      unfold SizedCache.trim
      split
      · exact lookupA_cons_self _ _ _
      case isFalse hgt =>
        have hone : c.order ≠ [] := by
          intro ho
          have hkeys : keys c.store = [] := by
            have hp : List.Perm [] (keys c.store) := ho ▸ hperm
            exact hp.symm.eq_nil
          have hstore : c.store = [] := List.map_eq_nil_iff.mp hkeys
          apply hgt
          show ((k, v) :: c.store).length ≤ c.capacity
          rw [hstore]
          exact hcap
        obtain ⟨b, hb⟩ : ∃ b, c.order.getLast? = some b := by
          cases hl2 : c.order.getLast? with
          | none => exact absurd (List.getLast?_eq_none_iff.mp hl2) hone
          | some b => exact ⟨b, rfl⟩
        have hbmem : b ∈ c.order := mem_of_getLast? hb
        have hkne : k ≠ b := fun e => hko (e ▸ hbmem)
        have hg : ({ c with store := (k, v) :: c.store, order := k :: c.order } : SizedCache K V).order.getLast? = some b := by
          show (k :: c.order).getLast? = some b
          cases ho : c.order with
          | nil => exact absurd ho hone
          | cons a t =>
              rw [List.getLast?_cons_cons, ← ho, hb]
        rw [hg]
        show lookupA (eraseKey ((k, v) :: c.store) b) k = some v
        rw [eraseKey_cons_ne hkne]
        exact lookupA_cons_self _ _ _

theorem SizedCache.length_set_present {c : SizedCache K V}
    (hc : sizedInvariant c) {k : K} {v0 : V}
    (hl : lookupA c.store k = some v0) (v : V) :
    (c.set k v).store.length = c.store.length := by
  obtain ⟨hlen, hnd, hperm⟩ := hc
  simp only [SizedCache.set, hl]
  have hk : k ∈ keys c.store := mem_keys_of_lookupA _ _ _ hl
  have hko : k ∈ c.order := hperm.mem_iff.mpr hk
  have hperm2 : (eraseAll c.order k).Perm (eraseAll (keys c.store) k) :=
    eraseAll_perm hperm k
  have e1 : c.order.length = (eraseAll c.order k).length + 1 :=
    length_eraseAll_of_mem hnd hko
  have e2 : c.order.length = (keys c.store).length := hperm.length_eq
  have e3 : (eraseAll c.order k).length = (eraseAll (keys c.store) k).length :=
    hperm2.length_eq
  have l1 : (keys c.store).length = c.store.length := by simp [keys]
  have l2 : (keys (eraseKey c.store k)).length = (eraseKey c.store k).length :=
    by simp [keys]
  have l3 : keys (eraseKey c.store k) = eraseAll (keys c.store) k :=
    keys_eraseKey _ _
  rw [l3] at l2
  show (eraseKey c.store k).length + 1 = c.store.length
  omega

end SizedStoreLemmas

section TimedStoreLemmas

variable {K V : Type} [DecidableEq K]

theorem TimedCache.get_eq_absent {c : TimedCache K V} {k : K} (now : Nat)
    (h : lookupA c.store k = none) :
    c.get now k = (none, { c with misses := c.misses + 1 }) := by
  simp [TimedCache.get, h]

theorem TimedCache.get_eq_expired {c : TimedCache K V} {k : K} {v : V}
    {ts now : Nat} (h : lookupA c.store k = some (v, ts))
    (hexp : c.lifespan < now - ts) :
    c.get now k =
      (none,
        { c with store := eraseKey c.store k, misses := c.misses + 1 }) := by
  simp [TimedCache.get, h, hexp]

theorem TimedCache.get_eq_fresh {c : TimedCache K V} {k : K} {v : V}
    {ts now : Nat} (h : lookupA c.store k = some (v, ts))
    (hfr : ¬c.lifespan < now - ts) :
    c.get now k = (some v, { c with hits := c.hits + 1 }) := by
  simp [TimedCache.get, h, hfr]

end TimedStoreLemmas

section CounterLemmas

variable {K V : Type} [DecidableEq K]

theorem UnboundCache.unbound_get_eq_hit {c : UnboundCache K V} {k : K} {v : V}
    (h : lookupA c.store k = some v) :
    c.get k = (some v, { c with hits := c.hits + 1 }) := by
  simp [UnboundCache.get, h]

theorem UnboundCache.unbound_get_eq_miss {c : UnboundCache K V} {k : K}
    (h : lookupA c.store k = none) :
    c.get k = (none, { c with misses := c.misses + 1 }) := by
  simp [UnboundCache.get, h]

theorem UnboundCache.unbound_counts_spec (c : UnboundCache K V)
    (ops : List (CacheOp K V)) :
    (c.applyOps ops).hits = c.hits + (c.counts ops).1 ∧
    (c.applyOps ops).misses = c.misses + (c.counts ops).2 := by
  induction ops generalizing c with
  | nil => exact ⟨rfl, rfl⟩
  | cons op t ih =>
    cases op with
    | set k v => exact ih (c.set k v)
    | get k =>
      cases hl : lookupA c.store k with
      | none =>
          obtain ⟨ih1, ih2⟩ := ih { c with misses := c.misses + 1 }
          constructor
          · simp only [UnboundCache.applyOps, UnboundCache.applyOp,
              UnboundCache.counts, UnboundCache.unbound_get_eq_miss hl]
            rw [ih1]
          · simp only [UnboundCache.applyOps, UnboundCache.applyOp,
              UnboundCache.counts, UnboundCache.unbound_get_eq_miss hl]
            rw [ih2]
            show c.misses + 1 + _ = c.misses + (_ + 1)
            omega
      | some v =>
          obtain ⟨ih1, ih2⟩ := ih { c with hits := c.hits + 1 }
          constructor
          · simp only [UnboundCache.applyOps, UnboundCache.applyOp,
              UnboundCache.counts, UnboundCache.unbound_get_eq_hit hl]
            rw [ih1]
            show c.hits + 1 + _ = c.hits + (_ + 1)
            omega
          · simp only [UnboundCache.applyOps, UnboundCache.applyOp,
              UnboundCache.counts, UnboundCache.unbound_get_eq_hit hl]
            rw [ih2]

theorem SizedCache.hits_trim (c : SizedCache K V) :
    (SizedCache.trim c).hits = c.hits := by
  unfold SizedCache.trim
  split
  · rfl
  · split <;> rfl

theorem SizedCache.misses_trim (c : SizedCache K V) :
    (SizedCache.trim c).misses = c.misses := by
  unfold SizedCache.trim
  split
  · rfl
  · split <;> rfl

theorem SizedCache.hits_set (c : SizedCache K V) (k : K) (v : V) :
    (c.set k v).hits = c.hits := by
  cases hl : lookupA c.store k with
  | some v0 => simp only [SizedCache.set, hl]
  | none =>
      simp only [SizedCache.set, hl]
      rw [SizedCache.hits_trim]

theorem SizedCache.misses_set (c : SizedCache K V) (k : K) (v : V) :
    (c.set k v).misses = c.misses := by
  cases hl : lookupA c.store k with
  | some v0 => simp only [SizedCache.set, hl]
  | none =>
      simp only [SizedCache.set, hl]
      rw [SizedCache.misses_trim]

theorem SizedCache.sized_counts_spec (c : SizedCache K V)
    (ops : List (CacheOp K V)) :
    (c.applyOps ops).hits = c.hits + (c.counts ops).1 ∧
    (c.applyOps ops).misses = c.misses + (c.counts ops).2 := by
  induction ops generalizing c with
  | nil => exact ⟨rfl, rfl⟩
  | cons op t ih =>
    cases op with
    | set k v =>
        obtain ⟨ih1, ih2⟩ := ih (c.set k v)
        constructor
        · show ((c.set k v).applyOps t).hits = c.hits + ((c.set k v).counts t).1
          rw [ih1, SizedCache.hits_set]
        · show ((c.set k v).applyOps t).misses =
            c.misses + ((c.set k v).counts t).2
          rw [ih2, SizedCache.misses_set]
    | get k =>
      cases hl : lookupA c.store k with
      | none =>
          obtain ⟨ih1, ih2⟩ := ih { c with misses := c.misses + 1 }
          constructor
          · simp only [SizedCache.applyOps, SizedCache.applyOp,
              SizedCache.counts, SizedCache.sized_get_eq_miss hl]
            rw [ih1]
          · simp only [SizedCache.applyOps, SizedCache.applyOp,
              SizedCache.counts, SizedCache.sized_get_eq_miss hl]
            rw [ih2]
            show c.misses + 1 + _ = c.misses + (_ + 1)
            omega
      | some v =>
          obtain ⟨ih1, ih2⟩ :=
            ih { c with hits := c.hits + 1, order := k :: eraseAll c.order k }
          constructor
          · simp only [SizedCache.applyOps, SizedCache.applyOp,
              SizedCache.counts, SizedCache.sized_get_eq_hit hl]
            rw [ih1]
            show c.hits + 1 + _ = c.hits + (_ + 1)
            omega
          · simp only [SizedCache.applyOps, SizedCache.applyOp,
              SizedCache.counts, SizedCache.sized_get_eq_hit hl]
            rw [ih2]

theorem TimedCache.timed_counts_spec (c : TimedCache K V)
    (ops : List (TimedOp K V)) :
    (c.applyOps ops).hits = c.hits + (c.counts ops).1 ∧
    (c.applyOps ops).misses = c.misses + (c.counts ops).2 := by
  induction ops generalizing c with
  | nil => exact ⟨rfl, rfl⟩
  | cons op t ih =>
    cases op with
    | set now k v => exact ih (c.set now k v)
    | get now k =>
      cases hl : lookupA c.store k with
      | none =>
          obtain ⟨ih1, ih2⟩ := ih { c with misses := c.misses + 1 }
          constructor
          · simp only [TimedCache.applyOps, TimedCache.applyOp,
              TimedCache.counts, TimedCache.get_eq_absent now hl]
            rw [ih1]
          · simp only [TimedCache.applyOps, TimedCache.applyOp,
              TimedCache.counts, TimedCache.get_eq_absent now hl]
            rw [ih2]
            show c.misses + 1 + _ = c.misses + (_ + 1)
            omega
      | some p =>
          obtain ⟨v, ts⟩ := p
          by_cases he : c.lifespan < now - ts
          · obtain ⟨ih1, ih2⟩ :=
              ih { c with store := eraseKey c.store k, misses := c.misses + 1 }
            constructor
            · simp only [TimedCache.applyOps, TimedCache.applyOp,
                TimedCache.counts, TimedCache.get_eq_expired hl he]
              rw [ih1]
            · simp only [TimedCache.applyOps, TimedCache.applyOp,
                TimedCache.counts, TimedCache.get_eq_expired hl he]
              rw [ih2]
              show c.misses + 1 + _ = c.misses + (_ + 1)
              omega
          · obtain ⟨ih1, ih2⟩ := ih { c with hits := c.hits + 1 }
            constructor
            · simp only [TimedCache.applyOps, TimedCache.applyOp,
                TimedCache.counts, TimedCache.get_eq_fresh hl he]
              rw [ih1]
              show c.hits + 1 + _ = c.hits + (_ + 1)
              omega
            · simp only [TimedCache.applyOps, TimedCache.applyOp,
                TimedCache.counts, TimedCache.get_eq_fresh hl he]
              rw [ih2]

end CounterLemmas

/-- C1: for every sequence of set (and get) operations on a `SizedCache`
constructed with capacity `C`, after each operation the store's `size()` is
at most `C`, and the recency ordering contains exactly the keys present in
the mapping (without duplicates). -/
theorem sizedCache_size_le_and_order_exact {K V : Type} [DecidableEq K]
    (C : Nat) (ops : List (CacheOp K V)) :
    ((SizedCache.with_size C : SizedCache K V).applyOps ops).cache_size ≤ C ∧
    ((SizedCache.with_size C : SizedCache K V).applyOps ops).order.Nodup ∧
    ((SizedCache.with_size C : SizedCache K V).applyOps ops).order.Perm
      (keys ((SizedCache.with_size C : SizedCache K V).applyOps ops).store) := by
  obtain ⟨h1, h2, h3⟩ :=
    sizedInvariant_applyOps (sizedInvariant_with_size C) ops
  refine ⟨?_, h2, h3⟩
  have hcap :=
    SizedCache.capacity_applyOps (SizedCache.with_size C : SizedCache K V) ops
  rw [SizedCache.cache_size]
  rw [hcap] at h1
  exact h1

/-- C2: on a `SizedCache` of capacity 2, the sequence `set 1 "a"`,
`set 2 "b"`, `get 1`, `set 3 "c"` leaves the store containing exactly the
keys 1 and 3 (size 2), with key 2 evicted as least-recently-accessed. -/
theorem sizedCache_lru_eviction_concrete :
    (lookupA (((((SizedCache.with_size 2 : SizedCache Nat String).set 1
        "a").set 2 "b").get 1).2.set 3 "c").store 1).isSome = true ∧
    (lookupA (((((SizedCache.with_size 2 : SizedCache Nat String).set 1
        "a").set 2 "b").get 1).2.set 3 "c").store 3).isSome = true ∧
    lookupA (((((SizedCache.with_size 2 : SizedCache Nat String).set 1
        "a").set 2 "b").get 1).2.set 3 "c").store 2 = none ∧
    (((((SizedCache.with_size 2 : SizedCache Nat String).set 1
        "a").set 2 "b").get 1).2.set 3 "c").cache_size = 2 := by
  decide

/-- C9: a `SizedCache` declared with capacity zero behaves per the spec's
"evicts immediately" choice: every set evicts the inserted entry at once, so
after every sequence of get and set operations `size()` is still 0 (and all
operations are total functions, so none can panic). -/
theorem sizedCache_capacity_zero_size_zero {K V : Type} [DecidableEq K]
    (ops : List (CacheOp K V)) :
    ((SizedCache.with_size 0 : SizedCache K V).applyOps ops).cache_size = 0 := by
  have h1 := (sizedInvariant_applyOps (sizedInvariant_with_size 0) ops).1
  have hcap :=
    SizedCache.capacity_applyOps (SizedCache.with_size 0 : SizedCache K V) ops
  rw [SizedCache.cache_size]
  rw [hcap] at h1
  exact Nat.le_zero.mp h1

/-- C3: on a `TimedCache` with lifespan `T`, a `get` of a key whose entry is
older than `T` removes the entry, increments the miss counter and returns
nothing; and an expired entry that is never read stays stored (a `get` of a
different key leaves it in place, still counted in `size()`): lazy
expiration, no background sweep. -/
theorem timedCache_lazy_expiration {K V : Type} [DecidableEq K]
    (c : TimedCache K V) (k k' : K) (v : V) (ts now now' : Nat)
    (hk : lookupA c.store k = some (v, ts))
    (hexp : c.lifespan < now - ts)
    (hne : k' ≠ k) :
    (c.get now k).1 = none ∧
    (c.get now k).2.cache_misses = some (c.misses + 1) ∧
    lookupA (c.get now k).2.store k = none ∧
    lookupA (c.get now' k').2.store k = some (v, ts) := by
  rw [TimedCache.get_eq_expired hk hexp]
  refine ⟨rfl, rfl, ?_, ?_⟩
  · show lookupA (eraseKey c.store k) k = none
    exact lookupA_eraseKey_self _ _
  · have hneq : k ≠ k' := fun e => hne (Eq.symm e)
    cases hl : lookupA c.store k' with
    | none =>
        rw [TimedCache.get_eq_absent now' hl]
        exact hk
    | some p =>
        obtain ⟨v', ts'⟩ := p
        by_cases he : c.lifespan < now' - ts'
        · rw [TimedCache.get_eq_expired hl he]
          show lookupA (eraseKey c.store k') k = some (v, ts)
          rw [lookupA_eraseKey_ne _ hneq]
          exact hk
        · rw [TimedCache.get_eq_fresh hl he]
          exact hk

/-- Witness for C3 at a concrete input: lifespan 1, key 1 set at second 0,
read at second 2; the other key 2 is read instead in the lazy conjunct. -/
theorem timedCache_lazy_expiration_witness :
    (lookupA ((TimedCache.with_lifespan 1 : TimedCache Nat Nat).set 0 1
        10).store 1 = some (10, 0) ∧
      ((TimedCache.with_lifespan 1 : TimedCache Nat Nat).set 0 1
        10).lifespan < 2 - 0 ∧
      (2 : Nat) ≠ 1) ∧
    ((((TimedCache.with_lifespan 1 : TimedCache Nat Nat).set 0 1 10).get 2
        1).1 = none ∧
      (((TimedCache.with_lifespan 1 : TimedCache Nat Nat).set 0 1 10).get 2
        1).2.cache_misses =
        some (((TimedCache.with_lifespan 1 : TimedCache Nat Nat).set 0 1
          10).misses + 1) ∧
      lookupA ((((TimedCache.with_lifespan 1 : TimedCache Nat Nat).set 0 1
        10).get 2 1).2).store 1 = none ∧
      lookupA ((((TimedCache.with_lifespan 1 : TimedCache Nat Nat).set 0 1
        10).get 2 2).2).store 1 = some (10, 0)) :=
  ⟨⟨rfl, by decide, by decide⟩,
    timedCache_lazy_expiration _ 1 2 10 0 2 2 rfl (by decide) (by decide)⟩

/-- C5: all three stores track statistics: starting from a freshly
constructed store, after a run whose lookups hit `n` times (key present and
not expired) and miss `m` times (key absent or expired), `hits()` returns
`some n` and `misses()` returns `some m` — never `none` — and from any
state the counters are monotonically non-decreasing across operations. -/
theorem all_stores_hit_miss_accounting {K V : Type} [DecidableEq K]
    (ops : List (CacheOp K V)) (tops : List (TimedOp K V)) (C T : Nat) :
    ((UnboundCache.new : UnboundCache K V).applyOps ops).cache_hits =
      some ((UnboundCache.new : UnboundCache K V).counts ops).1 ∧
    ((UnboundCache.new : UnboundCache K V).applyOps ops).cache_misses =
      some ((UnboundCache.new : UnboundCache K V).counts ops).2 ∧
    ((SizedCache.with_size C : SizedCache K V).applyOps ops).cache_hits =
      some ((SizedCache.with_size C : SizedCache K V).counts ops).1 ∧
    ((SizedCache.with_size C : SizedCache K V).applyOps ops).cache_misses =
      some ((SizedCache.with_size C : SizedCache K V).counts ops).2 ∧
    ((TimedCache.with_lifespan T : TimedCache K V).applyOps tops).cache_hits =
      some ((TimedCache.with_lifespan T : TimedCache K V).counts tops).1 ∧
    ((TimedCache.with_lifespan T : TimedCache K V).applyOps tops).cache_misses =
      some ((TimedCache.with_lifespan T : TimedCache K V).counts tops).2 ∧
    (∀ (c : UnboundCache K V) (l : List (CacheOp K V)),
      c.hits ≤ (c.applyOps l).hits ∧ c.misses ≤ (c.applyOps l).misses) ∧
    (∀ (c : SizedCache K V) (l : List (CacheOp K V)),
      c.hits ≤ (c.applyOps l).hits ∧ c.misses ≤ (c.applyOps l).misses) ∧
    (∀ (c : TimedCache K V) (l : List (TimedOp K V)),
      c.hits ≤ (c.applyOps l).hits ∧ c.misses ≤ (c.applyOps l).misses) := by
  refine ⟨?_, ?_, ?_, ?_, ?_, ?_, ?_, ?_, ?_⟩
  · have h :=
      (UnboundCache.unbound_counts_spec (UnboundCache.new : UnboundCache K V) ops).1
    simp only [UnboundCache.cache_hits]
    rw [h]
    simp [UnboundCache.new]
  · have h :=
      (UnboundCache.unbound_counts_spec (UnboundCache.new : UnboundCache K V) ops).2
    simp only [UnboundCache.cache_misses]
    rw [h]
    simp [UnboundCache.new]
  · have h :=
      (SizedCache.sized_counts_spec (SizedCache.with_size C : SizedCache K V) ops).1
    simp only [SizedCache.cache_hits]
    rw [h]
    simp [SizedCache.with_size]
  · have h :=
      (SizedCache.sized_counts_spec (SizedCache.with_size C : SizedCache K V) ops).2
    simp only [SizedCache.cache_misses]
    rw [h]
    simp [SizedCache.with_size]
  · have h := (TimedCache.timed_counts_spec
      (TimedCache.with_lifespan T : TimedCache K V) tops).1
    simp only [TimedCache.cache_hits]
    rw [h]
    simp [TimedCache.with_lifespan]
  · have h := (TimedCache.timed_counts_spec
      (TimedCache.with_lifespan T : TimedCache K V) tops).2
    simp only [TimedCache.cache_misses]
    rw [h]
    simp [TimedCache.with_lifespan]
  · intro c l
    obtain ⟨h1, h2⟩ := UnboundCache.unbound_counts_spec c l
    exact ⟨h1 ▸ Nat.le_add_right _ _, h2 ▸ Nat.le_add_right _ _⟩
  · intro c l
    obtain ⟨h1, h2⟩ := SizedCache.sized_counts_spec c l
    exact ⟨h1 ▸ Nat.le_add_right _ _, h2 ▸ Nat.le_add_right _ _⟩
  · intro c l
    obtain ⟨h1, h2⟩ := TimedCache.timed_counts_spec c l
    exact ⟨h1 ▸ Nat.le_add_right _ _, h2 ▸ Nat.le_add_right _ _⟩

/-- C6 counterexample: the claim "on every store, `set(k,v1); set(k,v2)`
leaves a subsequent `get(k)` returning `v2`" fails on the degenerate
`SizedCache` of capacity 0, where per the spec an insert never retains the
entry: `get` returns nothing, not `v2`. -/
theorem overwrite_get_counterexample :
    ¬((((SizedCache.with_size 0 : SizedCache Nat Nat).set 1 10).set 1
        20).get 1).1 = some 20 := by
  decide

/-- C6 (amended): on every store — restricted, for `SizedCache`, to the
non-degenerate capacities `C ≥ 1` and invariant-satisfying states, since a
capacity-0 `SizedCache` never retains entries — `set(k,v1)` then
`set(k,v2)` leaves `size()` unchanged relative to the state after the first
set, a subsequent `get(k)` returns `v2`, and the structural invariant is
preserved.  (For `TimedCache` the subsequent `get` is at the second set's
time, i.e. before any expiration.) -/
theorem overwrite_idempotent_amended {K V : Type} [DecidableEq K]
    (cu : UnboundCache K V) (cs : SizedCache K V) (ct : TimedCache K V)
    (k : K) (v1 v2 : V) (n1 n2 : Nat)
    (hinv : sizedInvariant cs) (hcap : 1 ≤ cs.capacity) :
    ((cu.set k v1).set k v2).cache_size = (cu.set k v1).cache_size ∧
    (((cu.set k v1).set k v2).get k).1 = some v2 ∧
    ((cs.set k v1).set k v2).cache_size = (cs.set k v1).cache_size ∧
    (((cs.set k v1).set k v2).get k).1 = some v2 ∧
    sizedInvariant ((cs.set k v1).set k v2) ∧
    ((ct.set n1 k v1).set n2 k v2).cache_size = (ct.set n1 k v1).cache_size ∧
    (((ct.set n1 k v1).set n2 k v2).get n2 k).1 = some v2 := by
  have hinv1 : sizedInvariant (cs.set k v1) := sizedInvariant_set hinv k v1
  have hcap1 : 1 ≤ (cs.set k v1).capacity := by
    rw [SizedCache.capacity_set]
    exact hcap
  have hsl1 : lookupA (cs.set k v1).store k = some v1 :=
    SizedCache.lookup_set_self hinv hcap k v1
  have hsl2 : lookupA ((cs.set k v1).set k v2).store k = some v2 :=
    SizedCache.lookup_set_self hinv1 hcap1 k v2
  refine ⟨?_, ?_, ?_, ?_, ?_, ?_, ?_⟩
  · show ((k, v2) :: eraseKey ((k, v1) :: eraseKey cu.store k) k).length =
      ((k, v1) :: eraseKey cu.store k).length
    rw [eraseKey_cons_self, eraseKey_eraseKey, List.length_cons,
      List.length_cons]
  · have hu2 : lookupA ((cu.set k v1).set k v2).store k = some v2 :=
      lookupA_cons_self _ _ _
    rw [UnboundCache.unbound_get_eq_hit hu2]
  · show ((cs.set k v1).set k v2).store.length = (cs.set k v1).store.length
    exact SizedCache.length_set_present hinv1 hsl1 v2
  · rw [SizedCache.sized_get_eq_hit hsl2]
  · exact sizedInvariant_set hinv1 k v2
  · show ((k, (v2, n2)) ::
        eraseKey ((k, (v1, n1)) :: eraseKey ct.store k) k).length =
      ((k, (v1, n1)) :: eraseKey ct.store k).length
    rw [eraseKey_cons_self, eraseKey_eraseKey, List.length_cons,
      List.length_cons]
  · have ht2 : lookupA ((ct.set n1 k v1).set n2 k v2).store k =
        some (v2, n2) := lookupA_cons_self _ _ _
    have hfr : ¬((ct.set n1 k v1).set n2 k v2).lifespan < n2 - n2 := by
      rw [Nat.sub_self]
      exact Nat.not_lt.mpr (Nat.zero_le _)
    rw [TimedCache.get_eq_fresh ht2 hfr]

/-- Witness for C6 (amended) at concrete inputs: fresh stores, `SizedCache`
of capacity 2, key 1, values 10 then 20, timestamps 0 and 3. -/
theorem overwrite_idempotent_amended_witness :
    (sizedInvariant (SizedCache.with_size 2 : SizedCache Nat Nat) ∧
      1 ≤ (SizedCache.with_size 2 : SizedCache Nat Nat).capacity) ∧
    ((((UnboundCache.new : UnboundCache Nat Nat).set 1 10).set 1
        20).cache_size =
      ((UnboundCache.new : UnboundCache Nat Nat).set 1 10).cache_size ∧
    ((((UnboundCache.new : UnboundCache Nat Nat).set 1 10).set 1 20).get
        1).1 = some 20 ∧
    ((((SizedCache.with_size 2 : SizedCache Nat Nat).set 1 10).set 1
        20).cache_size =
      ((SizedCache.with_size 2 : SizedCache Nat Nat).set 1 10).cache_size) ∧
    ((((SizedCache.with_size 2 : SizedCache Nat Nat).set 1 10).set 1 20).get
        1).1 = some 20 ∧
    sizedInvariant (((SizedCache.with_size 2 : SizedCache Nat Nat).set 1
        10).set 1 20) ∧
    ((((TimedCache.with_lifespan 5 : TimedCache Nat Nat).set 0 1 10).set 3 1
        20).cache_size =
      ((TimedCache.with_lifespan 5 : TimedCache Nat Nat).set 0 1
        10).cache_size) ∧
    ((((TimedCache.with_lifespan 5 : TimedCache Nat Nat).set 0 1 10).set 3 1
        20).get 3 1).1 = some 20) :=
  ⟨⟨sizedInvariant_with_size 2, by decide⟩,
    overwrite_idempotent_amended UnboundCache.new
      (SizedCache.with_size 2) (TimedCache.with_lifespan 5) 1 10 20 0 3
      (sizedInvariant_with_size 2) (by decide)⟩

section MemoLemmas

variable {C K V : Type}

theorem memoCall_eq_of_hit {ops : CachedOps C K V} {f : K → V}
    {s : MemoState C} {k : K} {v : V}
    (h : (ops.cache_get s.cache k).1 = some v) :
    memoCall ops f s k = (v, ⟨(ops.cache_get s.cache k).2, s.evals⟩) := by
  simp [memoCall, h]

theorem memoCall_eq_of_miss {ops : CachedOps C K V} {f : K → V}
    {s : MemoState C} {k : K}
    (h : (ops.cache_get s.cache k).1 = none) :
    memoCall ops f s k =
      (f k,
        ⟨ops.cache_set (ops.cache_get s.cache k).2 k (f k), s.evals + 1⟩) := by
  simp [memoCall, h]

theorem memoCall_evals_le (ops : CachedOps C K V) (f : K → V)
    (s : MemoState C) (k : K) :
    (memoCall ops f s k).2.evals ≤ s.evals + 1 := by
  cases h : (ops.cache_get s.cache k).1 with
  | some v =>
      rw [memoCall_eq_of_hit h]
      exact Nat.le_succ _
  | none =>
      rw [memoCall_eq_of_miss h]

end MemoLemmas

/-- C4: a memoized function called twice with equal arguments, with no
intervening eviction or expiration of the corresponding cache entry
(formalized: the second lookup still finds the first call's result),
evaluates its body at most once across the two calls, and the second call
returns a value equal to the first call's return value. -/
theorem memoized_twice_evaluates_once {C K V : Type} (ops : CachedOps C K V)
    (f : K → V) (s : MemoState C) (k : K)
    (hpres : (ops.cache_get (memoCall ops f s k).2.cache k).1 =
      some (memoCall ops f s k).1) :
    (memoCall ops f (memoCall ops f s k).2 k).1 = (memoCall ops f s k).1 ∧
    (memoCall ops f (memoCall ops f s k).2 k).2.evals ≤ s.evals + 1 := by
  have h1 := memoCall_eq_of_hit (f := f) hpres
  constructor
  · rw [h1]
  · rw [h1]
    exact memoCall_evals_le ops f s k

/-- Witness for C4 at a concrete input: the function `n + 1` memoized over
a fresh `UnboundCache`, called twice at key 5; the body runs once and both
calls return 6. -/
theorem memoized_twice_evaluates_once_witness :
    ((unboundOps Nat Nat).cache_get
        (memoCall (unboundOps Nat Nat) (fun n => n + 1)
          ⟨UnboundCache.new, 0⟩ 5).2.cache 5).1 =
      some (memoCall (unboundOps Nat Nat) (fun n => n + 1)
          ⟨UnboundCache.new, 0⟩ 5).1 ∧
    ((memoCall (unboundOps Nat Nat) (fun n => n + 1)
        (memoCall (unboundOps Nat Nat) (fun n => n + 1)
          ⟨UnboundCache.new, 0⟩ 5).2 5).1 =
      (memoCall (unboundOps Nat Nat) (fun n => n + 1)
        ⟨UnboundCache.new, 0⟩ 5).1 ∧
    (memoCall (unboundOps Nat Nat) (fun n => n + 1)
        (memoCall (unboundOps Nat Nat) (fun n => n + 1)
          ⟨UnboundCache.new, 0⟩ 5).2 5).2.evals ≤ 0 + 1) :=
  ⟨by decide,
    memoized_twice_evaluates_once (unboundOps Nat Nat) (fun n => n + 1)
      ⟨UnboundCache.new, 0⟩ 5 (by decide)⟩

/-- C7: in the result-caching variant, when the body returns an error on a
missed key, the error is returned to the caller unchanged and is never
inserted: the cache after the call is exactly the post-lookup state (the
store contents untouched apart from the miss counted by the lookup), and
the body was evaluated. -/
theorem memoResult_error_not_cached {C K V E : Type} (ops : CachedOps C K V)
    (f : K → Except E V) (s : MemoState C) (k : K) (e : E)
    (hmiss : (ops.cache_get s.cache k).1 = none)
    (herr : f k = Except.error e) :
    (memoResultCall ops f s k).1 = Except.error e ∧
    (memoResultCall ops f s k).2.cache = (ops.cache_get s.cache k).2 ∧
    (memoResultCall ops f s k).2.evals = s.evals + 1 := by
  simp [memoResultCall, hmiss, herr]

/-- Witness for C7 at a concrete input: a body that always fails with
error 7, over a fresh `UnboundCache`, called at key 1. -/
theorem memoResult_error_not_cached_witness :
    (((unboundOps Nat Nat).cache_get
        (⟨UnboundCache.new, 0⟩ : MemoState (UnboundCache Nat Nat)).cache
        1).1 = none ∧
      (fun (_ : Nat) => (Except.error 7 : Except Nat Nat)) 1 =
        Except.error 7) ∧
    ((memoResultCall (unboundOps Nat Nat)
        (fun _ => (Except.error 7 : Except Nat Nat))
        ⟨UnboundCache.new, 0⟩ 1).1 = Except.error 7 ∧
      (memoResultCall (unboundOps Nat Nat)
        (fun _ => (Except.error 7 : Except Nat Nat))
        ⟨UnboundCache.new, 0⟩ 1).2.cache =
        ((unboundOps Nat Nat).cache_get
          (⟨UnboundCache.new, 0⟩ : MemoState (UnboundCache Nat Nat)).cache
          1).2 ∧
      (memoResultCall (unboundOps Nat Nat)
        (fun _ => (Except.error 7 : Except Nat Nat))
        ⟨UnboundCache.new, 0⟩ 1).2.evals = 0 + 1) :=
  ⟨⟨rfl, rfl⟩,
    memoResult_error_not_cached (unboundOps Nat Nat)
      (fun _ => (Except.error 7 : Except Nat Nat))
      ⟨UnboundCache.new, 0⟩ 1 7 rfl rfl⟩

/-- C10: an implementor of the `Cached` trait that supplies only the three
required operations (`cache_get`, `cache_set`, `cache_size`) gets the
provided defaults of src/lib.rs lines 191-202: `cache_hits`,
`cache_misses`, `cache_capacity` and `cache_lifespan` all return `none` in
every state — statistics and configuration reporting are opt-in. -/
theorem cached_trait_defaults_none {C K V : Type}
    (g : C → K → Option V × C) (st : C → K → V → C) (sz : C → Nat) (c : C) :
    ({ cache_get := g, cache_set := st, cache_size := sz } :
        CachedOps C K V).cache_hits c = none ∧
    ({ cache_get := g, cache_set := st, cache_size := sz } :
        CachedOps C K V).cache_misses c = none ∧
    ({ cache_get := g, cache_set := st, cache_size := sz } :
        CachedOps C K V).cache_capacity c = none ∧
    ({ cache_get := g, cache_set := st, cache_size := sz } :
        CachedOps C K V).cache_lifespan c = none :=
  ⟨rfl, rfl, rfl, rfl⟩

end Cached
